import Mathlib

/-!
Verification of `batch.py` (ssp-lab-bitmoji-scripts): a command-line tool
that splits a directory of files into numbered batches, optionally
shuffling them first, and materializes each batch as a folder of copies.

The Python source is shallowly embedded below.  Python's dynamically
typed argument values are modelled by `PyVal`; the process-wide random
generator (`random.seed` / `random.shuffle`) is modelled by an abstract
deterministic generator `RNG` threaded explicitly; the filesystem used by
the materializer is modelled by `FS`.  Fallible operations return
`Option` (`none` = the Python call raises an uncaught exception).
-/

namespace BatchTool

/-- A Python runtime value, as produced by `argparse` (which yields `str`
for every flag given on the command line and the programmed default
otherwise) and consumed by the dynamically typed functions of `batch.py`. -/
inductive PyVal where
  | int : Int → PyVal
  | str : String → PyVal
  | bool : Bool → PyVal
  | pynone : PyVal
deriving DecidableEq, Repr

/-- Python truthiness (`if x:`): `None` and empty/zero values are falsy,
everything else is truthy. -/
def pyTruthy : PyVal → Bool
  | PyVal.int n => n ≠ 0
  | PyVal.str s => s ≠ ""
  | PyVal.bool b => b
  | PyVal.pynone => false

/-- Modelled from the Python standard library contract of the `random`
module: a deterministic pseudo-random generator with explicit state `σ`.
`seedFn` is `random.seed` (resets the process-wide state from the given
value, of any hashable type, hence `PyVal`); `shuffleFn` is
`random.shuffle` (permutes a list in place, advancing the state).
`shuffle_perm` records `random.shuffle`'s documented contract: the
resulting list is a permutation of the input. -/
structure RNG (σ : Type) where
  seedFn : PyVal → σ
  shuffleFn : σ → List String → List String × σ
  shuffle_perm : ∀ g l, ((shuffleFn g l).1).Perm l

/-- Ascending `range(start, stop, step)` for `step > 0`: the values
`start, start + step, …` while `< stop`. -/
def pyRangeUp (start stop step : Int) (h : 0 < step) : List Int :=
  if start < stop then start :: pyRangeUp (start + step) stop step h
  else []
termination_by (stop - start).toNat
decreasing_by omega

/-- Descending `range(start, stop, step)` for `step < 0`: the values
`start, start + step, …` while `> stop`. -/
def pyRangeDown (start stop step : Int) (h : step < 0) : List Int :=
  if stop < start then start :: pyRangeDown (start + step) stop step h
  else []
termination_by (start - stop).toNat
decreasing_by omega

/-- Python `range(start, stop, step)`; `step = 0` raises `ValueError`. -/
def pyRange (start stop step : Int) : Option (List Int) :=
  if h : 0 < step then some (pyRangeUp start stop step h)
  else if h2 : step < 0 then some (pyRangeDown start stop step h2)
  else none

/-- Python list slice `l[a : b]` for the index shapes reachable in
`batch.py` (`a` is an element of `range(0, len l, step)` with positive
step, so `0 ≤ a` and `b = a + step > a`). -/
def pySlice (l : List String) (a b : Int) : List String :=
  (l.drop a.toNat).take (b - a).toNat

/-- Embedding of `split_filepaths_into_batches` (batch.py lines 38-72).
State passing makes the Python effects explicit: the result carries the
batch dictionary (an association list in insertion order, exactly a
Python `dict` with `int` keys), the caller's list after the in-place
shuffle of line 67, and the generator state.  `batch_size` is a `PyVal`
because `main` passes it straight from `argparse`; a non-`int` value
makes line 69's `range` raise `TypeError` (`none`). -/
def split_filepaths_into_batches {σ : Type} (rng : RNG σ) (g : σ)
    (all_image_paths : List String) (batch_size : PyVal)
    (shuffle : PyVal) (seed : PyVal) :
    Option (List (Nat × List String) × List String × σ) :=
  let g1 := if seed = PyVal.pynone then g else rng.seedFn seed
  let pg := if pyTruthy shuffle then rng.shuffleFn g1 all_image_paths
            else (all_image_paths, g1)
  match batch_size with
  | PyVal.int bs =>
      match pyRange 0 (pg.1.length : Int) bs with
      | some idxs =>
          some ((List.enumFrom 1 idxs).map
                  (fun p => (p.1, pySlice pg.1 p.2 (p.2 + bs))),
                pg.1, pg.2)
      | none => none
  | _ => none

/-- `argparse` value of `-b (--batch_size)` (batch.py lines 132-133): a
string when supplied, the `int` default `100` otherwise. -/
def parse_batch_size : Option String → PyVal
  | Option.none => PyVal.int 100
  | Option.some s => PyVal.str s

/-- `argparse` value of `-s (--shuffle)` (batch.py lines 134-136): a string
when supplied, the `bool` default `True` otherwise. -/
def parse_shuffle : Option String → PyVal
  | Option.none => PyVal.bool true
  | Option.some s => PyVal.str s

/-- `argparse` value of `-S (--seed)` (batch.py lines 141-143): a string
when supplied, the default `None` otherwise. -/
def parse_seed : Option String → PyVal
  | Option.none => PyVal.pynone
  | Option.some s => PyVal.str s

/-- The command-line arguments of one invocation, after parsing:
`none` = flag absent (default applies), `some s` = the flag was given
the string `s`. -/
structure Args where
  directory : String
  batch_size : Option String
  shuffle : Option String
  output_directory : Option String
  seed : Option String

/-- The partitioning step of `main` (batch.py lines 148-160): `main`
calls `split_filepaths_into_batches(all_image_paths, batch_size,
shuffle)` with only three arguments, so the `seed` parameter takes its
Python default `None` — `args.seed` is parsed but never used. -/
def main_split {σ : Type} (rng : RNG σ) (g : σ) (args : Args)
    (all_image_paths : List String) :
    Option (List (Nat × List String) × List String × σ) :=
  split_filepaths_into_batches rng g all_image_paths
    (parse_batch_size args.batch_size) (parse_shuffle args.shuffle)
    PyVal.pynone

/-- Proof-side normal form of the slicing loop of lines 69-70: the list
cut into consecutive windows of `bs` elements, the last window possibly
shorter. -/
def chunks (bs : Nat) (h : 0 < bs) : List String → List (List String)
  | [] => []
  | x :: xs => ((x :: xs).take bs) :: chunks bs h ((x :: xs).drop bs)
termination_by l => l.length
decreasing_by simp [List.length_drop]; omega

theorem chunks_nil (bs : Nat) (h : 0 < bs) : chunks bs h [] = [] := by
  rw [chunks]

theorem chunks_cons (bs : Nat) (h : 0 < bs) (x : String) (xs : List String) :
    chunks bs h (x :: xs) =
      ((x :: xs).take bs) :: chunks bs h ((x :: xs).drop bs) := by
  rw [chunks]

theorem pyRangeUp_eq (start stop step : Int) (h : 0 < step) :
    pyRangeUp start stop step h =
      if start < stop then start :: pyRangeUp (start + step) stop step h
      else [] := by
  rw [pyRangeUp]

theorem pyRangeDown_eq (start stop step : Int) (h : step < 0) :
    pyRangeDown start stop step h =
      if stop < start then start :: pyRangeDown (start + step) stop step h
      else [] := by
  rw [pyRangeDown]

/-- Concatenating the chunks gives back the list. -/
theorem chunks_flatten (bs : Nat) (h : 0 < bs) (l : List String) :
    (chunks bs h l).flatten = l := by
  have key : ∀ n (l : List String), l.length ≤ n → (chunks bs h l).flatten = l := by
    intro n
    induction n with
    | zero =>
        intro l hl
        have : l = [] := by
          cases l with
          | nil => rfl
          | cons x xs => simp at hl
        subst this
        simp [chunks_nil]
    | succ n ih =>
        intro l hl
        cases l with
        | nil => simp [chunks_nil]
        | cons x xs =>
            rw [chunks_cons]
            have hdrop : ((x :: xs).drop bs).length ≤ n := by
              simp only [List.length_drop, List.length_cons] at *
              omega
            rw [List.flatten_cons, ih _ hdrop, List.take_append_drop]
  exact key l.length l le_rfl

/-- The number of chunks is `⌈length / bs⌉`. -/
theorem chunks_length (bs : Nat) (h : 0 < bs) (l : List String) :
    (chunks bs h l).length = (l.length + bs - 1) / bs := by
  have key : ∀ n (l : List String), l.length ≤ n →
      (chunks bs h l).length = (l.length + bs - 1) / bs := by
    intro n
    induction n with
    | zero =>
        intro l hl
        have : l = [] := by
          cases l with
          | nil => rfl
          | cons x xs => simp at hl
        subst this
        rw [chunks_nil]
        simp only [List.length_nil, Nat.zero_add]
        rw [Nat.div_eq_of_lt (by omega)]
    | succ n ih =>
        intro l hl
        cases l with
        | nil =>
            rw [chunks_nil]
            simp only [List.length_nil, Nat.zero_add]
            rw [Nat.div_eq_of_lt (by omega)]
        | cons x xs =>
            rw [chunks_cons]
            simp only [List.length_cons] at hl
            have hdrop : ((x :: xs).drop bs).length ≤ n := by
              rw [List.length_drop]
              simp only [List.length_cons]
              omega
            rw [List.length_cons, ih _ hdrop]
            rw [List.length_drop]
            simp only [List.length_cons]
            rcases Nat.lt_or_ge (xs.length + 1) bs with hc | hc
            · have h1 : (xs.length + 1 - bs + bs - 1) / bs = 0 :=
                Nat.div_eq_of_lt (by omega)
              have h2 : (xs.length + 1 + bs - 1) / bs = 1 :=
                Nat.div_eq_of_lt_le (by omega) (by omega)
              omega
            · have h1 : xs.length + 1 + bs - 1 =
                  (xs.length + 1 - bs + bs - 1) + bs := by omega
              rw [h1, Nat.add_div_right _ h]
  exact key l.length l le_rfl

theorem chunks_ne_nil (bs : Nat) (h : 0 < bs) (l : List String)
    (hl : l ≠ []) : chunks bs h l ≠ [] := by
  cases l with
  | nil => exact absurd rfl hl
  | cons x xs => rw [chunks_cons]; simp

/-- Every chunk except possibly the last has exactly `bs` elements. -/
theorem chunks_dropLast (bs : Nat) (h : 0 < bs) (l : List String) :
    ∀ c ∈ (chunks bs h l).dropLast, c.length = bs := by
  have key : ∀ n (l : List String), l.length ≤ n →
      ∀ c ∈ (chunks bs h l).dropLast, c.length = bs := by
    intro n
    induction n with
    | zero =>
        intro l hl c hc
        have : l = [] := by
          cases l with
          | nil => rfl
          | cons x xs => simp at hl
        subst this
        simp [chunks_nil] at hc
    | succ n ih =>
        intro l hl c hc
        cases l with
        | nil => simp [chunks_nil] at hc
        | cons x xs =>
            rw [chunks_cons] at hc
            simp only [List.length_cons] at hl
            by_cases hdn : (x :: xs).drop bs = []
            · rw [hdn, chunks_nil] at hc
              simp at hc
            · have hbig : bs < xs.length + 1 := by
                by_contra hcon
                exact hdn (List.drop_eq_nil_of_le
                  (by simp only [List.length_cons]; omega))
              have hdrop : ((x :: xs).drop bs).length ≤ n := by
                rw [List.length_drop]
                simp only [List.length_cons]
                omega
              have hne : chunks bs h ((x :: xs).drop bs) ≠ [] :=
                chunks_ne_nil bs h _ hdn
              rcases List.exists_cons_of_ne_nil hne with ⟨c0, cs, hcs⟩
              rw [hcs] at hc
              rw [List.dropLast_cons₂] at hc
              rcases List.mem_cons.mp hc with hhead | htail
              · subst hhead
                simp only [List.length_take, List.length_cons]
                omega
              · have := ih _ hdrop c
                rw [hcs] at this
                exact this htail
  exact key l.length l le_rfl

/-- The last chunk of a non-empty list has `N - bs*(k-1)` elements,
which lies in `[1, bs]`. -/
theorem chunks_getLast (bs : Nat) (h : 0 < bs) (l : List String)
    (hl : l ≠ []) :
    ∃ c, (chunks bs h l).getLast? = some c ∧
      c.length = l.length - bs * ((chunks bs h l).length - 1) ∧
      1 ≤ c.length ∧ c.length ≤ bs := by
  have key : ∀ n (l : List String), l.length ≤ n → l ≠ [] →
      ∃ c, (chunks bs h l).getLast? = some c ∧
        c.length = l.length - bs * ((chunks bs h l).length - 1) ∧
        1 ≤ c.length ∧ c.length ≤ bs := by
    intro n
    induction n with
    | zero =>
        intro l hl hne
        exfalso
        cases l with
        | nil => exact hne rfl
        | cons x xs => simp at hl
    | succ n ih =>
        intro l hl hne
        cases l with
        | nil => exact absurd rfl hne
        | cons x xs =>
            simp only [List.length_cons] at hl
            by_cases hdn : (x :: xs).drop bs = []
            · have hsm : xs.length + 1 ≤ bs := by
                have := congrArg List.length hdn
                rw [List.length_drop] at this
                simp only [List.length_cons, List.length_nil] at this
                omega
              refine ⟨(x :: xs).take bs, ?_, ?_, ?_, ?_⟩
              · rw [chunks_cons, hdn, chunks_nil]
                rfl
              · rw [chunks_cons, hdn, chunks_nil]
                simp only [List.length_take, List.length_cons,
                  List.length_nil, Nat.zero_add, Nat.sub_self,
                  Nat.mul_zero, Nat.sub_zero]
                omega
              · simp only [List.length_take, List.length_cons]
                omega
              · simp only [List.length_take, List.length_cons]
                omega
            · have hbig : bs < xs.length + 1 := by
                by_contra hcon
                exact hdn (List.drop_eq_nil_of_le
                  (by simp only [List.length_cons]; omega))
              have hdrop : ((x :: xs).drop bs).length ≤ n := by
                rw [List.length_drop]
                simp only [List.length_cons]
                omega
              rcases ih _ hdrop hdn with ⟨c, hlast, hclen, hc1, hc2⟩
              have hne2 : chunks bs h ((x :: xs).drop bs) ≠ [] :=
                chunks_ne_nil bs h _ hdn
              rcases List.exists_cons_of_ne_nil hne2 with ⟨c0, cs, hcs⟩
              refine ⟨c, ?_, ?_, hc1, hc2⟩
              · rw [chunks_cons, hcs, List.getLast?_cons_cons, ← hcs,
                  hlast]
              · have hk : 1 ≤ (chunks bs h ((x :: xs).drop bs)).length := by
                  rw [hcs]; simp
                obtain ⟨m, hm⟩ : ∃ m,
                    (chunks bs h ((x :: xs).drop bs)).length = m + 1 :=
                  ⟨(chunks bs h ((x :: xs).drop bs)).length - 1, by omega⟩
                rw [chunks_cons]
                simp only [List.length_cons]
                rw [hm]
                rw [List.length_drop] at hclen
                simp only [List.length_cons] at hclen
                rw [hm] at hclen
                rw [Nat.add_sub_cancel] at hclen ⊢
                rw [hclen, Nat.mul_succ]
                omega
  exact key l.length l le_rfl hl

/-- Chunk `i` (0-indexed) is the slice from `i*bs` of length `bs`. -/
theorem chunks_getElem (bs : Nat) (h : 0 < bs) :
    ∀ (i : Nat) (l : List String), i < (chunks bs h l).length →
      (chunks bs h l)[i]? = some ((l.drop (i * bs)).take bs) := by
  intro i
  induction i with
  | zero =>
      intro l hi
      cases l with
      | nil => rw [chunks_nil] at hi; simp at hi
      | cons x xs =>
          rw [chunks_cons]
          simp
  | succ i ih =>
      intro l hi
      cases l with
      | nil => rw [chunks_nil] at hi; simp at hi
      | cons x xs =>
          rw [chunks_cons] at hi ⊢
          simp only [List.length_cons] at hi
          have hi' : i < (chunks bs h ((x :: xs).drop bs)).length := by omega
          rw [List.getElem?_cons_succ, ih _ hi', List.drop_drop]
          congr 2
          ring_nf

/-- Bridge: the loop of lines 69-70 — `enumerate(range(0, len, bs), 1)`
with slices `l[i : i+bs]` — produces exactly the numbered `chunks`.
Stated for an arbitrary suffix offset `a` and enumeration start `j` so
that it can be proved by induction. -/
theorem enumFrom_pyRangeUp_slices (paths : List String) (bs : Int)
    (h : 0 < bs) :
    ∀ (n : Nat) (a : Int) (j : Nat), 0 ≤ a →
      paths.length - a.toNat ≤ n →
      (List.enumFrom j (pyRangeUp a (paths.length : Int) bs h)).map
          (fun p => (p.1, pySlice paths p.2 (p.2 + bs)))
        = List.enumFrom j
            (chunks bs.toNat (by omega) (paths.drop a.toNat)) := by
  intro n
  induction n with
  | zero =>
      intro a j ha0 hn
      have ha : paths.length ≤ a.toNat := by omega
      rw [pyRangeUp_eq]
      have hnotlt : ¬ (a < (paths.length : Int)) := by omega
      rw [if_neg hnotlt]
      rw [List.drop_eq_nil_of_le ha, chunks_nil]
      rfl
  | succ n ih =>
      intro a j ha0 hn
      by_cases ha : a.toNat < paths.length
      · rw [pyRangeUp_eq]
        have hlt : a < (paths.length : Int) := by omega
        rw [if_pos hlt]
        have hslice : pySlice paths a (a + bs)
            = (paths.drop a.toNat).take bs.toNat := by
          have h2 : (a + bs - a).toNat = bs.toNat := by omega
          unfold pySlice
          rw [h2]
        obtain ⟨x, xs, hxs⟩ :
            ∃ x xs, paths.drop a.toNat = x :: xs :=
          List.exists_cons_of_ne_nil
            (List.ne_nil_of_length_pos
              (by rw [List.length_drop]; omega))
        rw [hxs, chunks_cons, ← hxs]
        have htail : (paths.drop a.toNat).drop bs.toNat
            = paths.drop ((a + bs).toNat) := by
          rw [List.drop_drop]
          congr 1
          omega
        rw [htail]
        show (j, pySlice paths a (a + bs))
              :: (List.enumFrom (j + 1)
                   (pyRangeUp (a + bs) (paths.length : Int) bs h)).map
                     (fun p => (p.1, pySlice paths p.2 (p.2 + bs)))
            = (j, (paths.drop a.toNat).take bs.toNat)
              :: List.enumFrom (j + 1)
                   (chunks bs.toNat (by omega) (paths.drop ((a + bs).toNat)))
        rw [hslice, ih (a + bs) (j + 1) (by omega) (by omega)]
      · rw [pyRangeUp_eq]
        have hnotlt : ¬ (a < (paths.length : Int)) := by omega
        rw [if_neg hnotlt]
        rw [List.drop_eq_nil_of_le (by omega), chunks_nil]
        rfl

/-- The ordering phase of `split_filepaths_into_batches` (lines 64-67):
the list to be sliced and the generator state after the optional
seeding and in-place shuffle. -/
def postShuffle {σ : Type} (rng : RNG σ) (g : σ) (paths : List String)
    (shuffle seed : PyVal) : List String × σ :=
  let g1 := if seed = PyVal.pynone then g else rng.seedFn seed
  if pyTruthy shuffle then rng.shuffleFn g1 paths else (paths, g1)

theorem postShuffle_perm {σ : Type} (rng : RNG σ) (g : σ)
    (paths : List String) (shuffle seed : PyVal) :
    ((postShuffle rng g paths shuffle seed).1).Perm paths := by
  unfold postShuffle
  by_cases hs : pyTruthy shuffle
  · simp only [hs, if_true]
    exact rng.shuffle_perm _ paths
  · rw [if_neg hs]

/-- `split_filepaths_into_batches` expressed through `postShuffle`:
pure definitional rearrangement of the two `let`s. -/
theorem split_unfold {σ : Type} (rng : RNG σ) (g : σ)
    (paths : List String) (bv shuffle seed : PyVal) :
    split_filepaths_into_batches rng g paths bv shuffle seed
      = match bv with
        | PyVal.int bs =>
            match pyRange 0
                (((postShuffle rng g paths shuffle seed).1.length : Int))
                bs with
            | some idxs =>
                some ((List.enumFrom 1 idxs).map
                    (fun p =>
                      (p.1, pySlice (postShuffle rng g paths shuffle seed).1
                        p.2 (p.2 + bs))),
                  (postShuffle rng g paths shuffle seed).1,
                  (postShuffle rng g paths shuffle seed).2)
            | none => none
        | _ => none := rfl

/-- With an integer positive batch size, `split_filepaths_into_batches`
succeeds and its batch dictionary is the numbered chunk list of the
post-shuffle order. -/
theorem split_eq_chunks {σ : Type} (rng : RNG σ) (g : σ)
    (paths : List String) (bs : Int) (shuffle seed : PyVal)
    (hbs : 0 < bs) :
    split_filepaths_into_batches rng g paths (PyVal.int bs) shuffle seed
      = some
          (List.enumFrom 1
            (chunks bs.toNat (by omega)
              ((postShuffle rng g paths shuffle seed).1)),
           (postShuffle rng g paths shuffle seed).1,
           (postShuffle rng g paths shuffle seed).2) := by
  rcases hpg : postShuffle rng g paths shuffle seed with ⟨fp, g2⟩
  rw [split_unfold, hpg]
  have hr : pyRange 0 ((fp, g2).1.length : Int) bs
      = some (pyRangeUp 0 ((fp, g2).1.length : Int) bs hbs) := by
    unfold pyRange
    rw [dif_pos hbs]
  show (match pyRange 0 ((fp, g2).1.length : Int) bs with
        | some idxs =>
            some ((List.enumFrom 1 idxs).map
                (fun p => (p.1, pySlice (fp, g2).1 p.2 (p.2 + bs))),
              (fp, g2).1, (fp, g2).2)
        | none => none)
      = some (List.enumFrom 1 (chunks bs.toNat (by omega) (fp, g2).1),
          (fp, g2).1, (fp, g2).2)
  rw [hr]
  have hmap := enumFrom_pyRangeUp_slices fp bs hbs fp.length 0 1
    (le_refl 0) (by simp)
  simp only [Int.toNat_zero, List.drop_zero] at hmap
  show some ((List.enumFrom 1
        (pyRangeUp 0 ((fp, g2).1.length : Int) bs hbs)).map
          (fun p => (p.1, pySlice (fp, g2).1 p.2 (p.2 + bs))),
        (fp, g2).1, (fp, g2).2)
      = some (List.enumFrom 1 (chunks bs.toNat (by omega) (fp, g2).1),
          (fp, g2).1, (fp, g2).2)
  show some ((List.enumFrom 1
        (pyRangeUp 0 (fp.length : Int) bs hbs)).map
          (fun p => (p.1, pySlice fp p.2 (p.2 + bs))), fp, g2)
      = some (List.enumFrom 1 (chunks bs.toNat (by omega) fp), fp, g2)
  rw [hmap]

theorem enumFrom_map_fst_eq_range' {α : Type} :
    ∀ (l : List α) (j : Nat),
      (List.enumFrom j l).map Prod.fst = List.range' j l.length := by
  intro l
  induction l with
  | nil => intro j; rfl
  | cons x xs ih =>
      intro j
      show j :: (List.enumFrom (j + 1) xs).map Prod.fst
          = List.range' j (xs.length + 1)
      rw [List.range'_succ, ih (j + 1)]

theorem enumFrom_map_snd_eq {α : Type} :
    ∀ (l : List α) (j : Nat), (List.enumFrom j l).map Prod.snd = l := by
  intro l
  induction l with
  | nil => intro j; rfl
  | cons x xs ih =>
      intro j
      show x :: (List.enumFrom (j + 1) xs).map Prod.snd = x :: xs
      rw [ih (j + 1)]

theorem enumFrom_dropLast {α : Type} :
    ∀ (l : List α) (j : Nat),
      (List.enumFrom j l).dropLast = List.enumFrom j l.dropLast := by
  intro l
  induction l with
  | nil => intro j; rfl
  | cons x xs ih =>
      intro j
      cases xs with
      | nil => rfl
      | cons y ys =>
          show ((j, x) :: List.enumFrom (j + 1) (y :: ys)).dropLast
              = List.enumFrom j ((x :: y :: ys).dropLast)
          rw [List.dropLast_cons₂]
          show (j, x) :: (List.enumFrom (j + 1) (y :: ys)).dropLast
              = (j, x) :: List.enumFrom (j + 1) ((y :: ys).dropLast)
          rw [ih (j + 1)]

theorem enumFrom_getLast?_snd {α : Type} :
    ∀ (l : List α) (j : Nat),
      ((List.enumFrom j l).getLast?).map Prod.snd = l.getLast? := by
  intro l
  induction l with
  | nil => intro j; rfl
  | cons x xs ih =>
      intro j
      cases xs with
      | nil => rfl
      | cons y ys =>
          show (((j, x) :: (j + 1, y) :: List.enumFrom (j + 2) ys).getLast?).map
                Prod.snd
              = (x :: y :: ys).getLast?
          rw [List.getLast?_cons_cons, List.getLast?_cons_cons]
          exact ih (j + 1)

/-- A concrete deterministic generator instance (identity shuffle),
used to instantiate the abstract `RNG` in witnesses. -/
def idRNG : RNG Unit where
  seedFn := fun _ => ()
  shuffleFn := fun g l => (l, g)
  shuffle_perm := fun _ l => List.Perm.refl l

/-- C1: with a positive integer batch size, the batch dictionary's keys
are exactly `1..k` for `k = ⌈N / batch_size⌉`; its values concatenated
in key order are the post-shuffle path sequence (a permutation of the
input); every batch except possibly the last has exactly `batch_size`
members; the last has `N - batch_size*(k-1)` members, which lies in
`[1, batch_size]`; and for duplicate-free input the batches are
pairwise disjoint. -/
theorem spec_C1 {σ : Type} (rng : RNG σ) (g : σ) (paths : List String)
    (bs : Int) (shuffle seed : PyVal) (hbs : 0 < bs) :
    ∃ batches finalPaths g2,
      split_filepaths_into_batches rng g paths (PyVal.int bs) shuffle seed
        = some (batches, finalPaths, g2) ∧
      finalPaths.Perm paths ∧
      batches.map Prod.fst
        = List.range' 1 ((paths.length + bs.toNat - 1) / bs.toNat) ∧
      (batches.map Prod.snd).flatten = finalPaths ∧
      (∀ p ∈ batches.dropLast, p.2.length = bs.toNat) ∧
      (paths ≠ [] → ∃ lastp, batches.getLast? = some lastp ∧
        lastp.2.length
          = paths.length
            - bs.toNat * ((paths.length + bs.toNat - 1) / bs.toNat - 1) ∧
        1 ≤ lastp.2.length ∧ lastp.2.length ≤ bs.toNat) ∧
      (paths.Nodup → List.Pairwise List.Disjoint (batches.map Prod.snd)) := by
  have hB : 0 < bs.toNat := by omega
  have hperm : ((postShuffle rng g paths shuffle seed).1).Perm paths :=
    postShuffle_perm rng g paths shuffle seed
  have hlen : (postShuffle rng g paths shuffle seed).1.length
      = paths.length := hperm.length_eq
  refine ⟨List.enumFrom 1
      (chunks bs.toNat hB (postShuffle rng g paths shuffle seed).1),
    (postShuffle rng g paths shuffle seed).1,
    (postShuffle rng g paths shuffle seed).2,
    split_eq_chunks rng g paths bs shuffle seed hbs,
    hperm, ?_, ?_, ?_, ?_, ?_⟩
  · rw [enumFrom_map_fst_eq_range', chunks_length, hlen]
  · rw [enumFrom_map_snd_eq, chunks_flatten]
  · intro p hp
    rw [enumFrom_dropLast] at hp
    have h2 : p.2 ∈ (List.enumFrom 1
        ((chunks bs.toNat hB
          (postShuffle rng g paths shuffle seed).1).dropLast)).map
            Prod.snd :=
      List.mem_map_of_mem Prod.snd hp
    rw [enumFrom_map_snd_eq] at h2
    exact chunks_dropLast bs.toNat hB _ p.2 h2
  · intro hne
    have hfpne : (postShuffle rng g paths shuffle seed).1 ≠ [] := by
      intro hnil
      have := congrArg List.length hnil
      rw [hlen] at this
      simp only [List.length_nil] at this
      exact hne (List.eq_nil_of_length_eq_zero this)
    rcases chunks_getLast bs.toNat hB _ hfpne with ⟨c0, hc0, hclen, hc1, hc2⟩
    have hsnd := enumFrom_getLast?_snd
      (chunks bs.toNat hB (postShuffle rng g paths shuffle seed).1) 1
    rw [hc0] at hsnd
    cases hlast : (List.enumFrom 1
        (chunks bs.toNat hB
          (postShuffle rng g paths shuffle seed).1)).getLast? with
    | none =>
        rw [hlast] at hsnd
        exact Option.noConfusion hsnd
    | some lp =>
        rw [hlast] at hsnd
        have hlp2 : lp.2 = c0 := by
          injection hsnd
        refine ⟨lp, rfl, ?_, ?_, ?_⟩
        · rw [hlp2, hclen, hlen, chunks_length, hlen]
        · rw [hlp2]; exact hc1
        · rw [hlp2]; exact hc2
  · intro hnodup
    have hfpnodup : ((postShuffle rng g paths shuffle seed).1).Nodup :=
      hperm.symm.nodup hnodup
    have hfl : ((List.enumFrom 1
        (chunks bs.toNat hB
          (postShuffle rng g paths shuffle seed).1)).map
            Prod.snd).flatten.Nodup := by
      rw [enumFrom_map_snd_eq, chunks_flatten]
      exact hfpnodup
    exact (List.nodup_flatten.mp hfl).2

/-- Witness for C1 at a concrete input: three paths, batch size 2. -/
theorem spec_C1_witness :
    (0 : Int) < 2 ∧
    ∃ batches finalPaths g2,
      split_filepaths_into_batches idRNG () ["a", "b", "c"] (PyVal.int 2)
          (PyVal.bool true) PyVal.pynone
        = some (batches, finalPaths, g2) ∧
      finalPaths.Perm ["a", "b", "c"] ∧
      batches.map Prod.fst
        = List.range' 1
            ((["a", "b", "c"].length + (2 : Int).toNat - 1) / (2 : Int).toNat) ∧
      (batches.map Prod.snd).flatten = finalPaths ∧
      (∀ p ∈ batches.dropLast, p.2.length = (2 : Int).toNat) ∧
      (["a", "b", "c"] ≠ [] → ∃ lastp, batches.getLast? = some lastp ∧
        lastp.2.length
          = ["a", "b", "c"].length
            - (2 : Int).toNat
              * ((["a", "b", "c"].length + (2 : Int).toNat - 1)
                  / (2 : Int).toNat - 1) ∧
        1 ≤ lastp.2.length ∧ lastp.2.length ≤ (2 : Int).toNat) ∧
      (["a", "b", "c"].Nodup →
        List.Pairwise List.Disjoint (batches.map Prod.snd)) :=
  ⟨by decide,
   spec_C1 idRNG () ["a", "b", "c"] 2 (PyVal.bool true) PyVal.pynone
     (by decide)⟩

/-- C3: with shuffle enabled and any non-`None` seed, the result of
`split_filepaths_into_batches` does not depend on the prior generator
state: two runs with the same seed and the same input sequence yield
identical batch collections (same numbers, same membership, same order
within each batch — the full results are equal). -/
theorem spec_C3 {σ : Type} (rng : RNG σ) (g g' : σ) (paths : List String)
    (bs : Int) (seed : PyVal) (_hbs : 0 < bs)
    (hseed : seed ≠ PyVal.pynone) :
    split_filepaths_into_batches rng g paths (PyVal.int bs)
        (PyVal.bool true) seed
      = split_filepaths_into_batches rng g' paths (PyVal.int bs)
          (PyVal.bool true) seed := by
  have hps : postShuffle rng g paths (PyVal.bool true) seed
      = postShuffle rng g' paths (PyVal.bool true) seed := by
    unfold postShuffle
    simp only [if_neg hseed]
  rw [split_unfold rng g, split_unfold rng g', hps]

/-- Witness for C3 at a concrete input. -/
theorem spec_C3_witness :
    (0 : Int) < 2 ∧ PyVal.int 7 ≠ PyVal.pynone ∧
    split_filepaths_into_batches idRNG () ["a", "b", "c"] (PyVal.int 2)
        (PyVal.bool true) (PyVal.int 7)
      = split_filepaths_into_batches idRNG () ["a", "b", "c"] (PyVal.int 2)
          (PyVal.bool true) (PyVal.int 7) :=
  ⟨by decide, by decide,
   spec_C3 idRNG () () ["a", "b", "c"] 2 (PyVal.int 7) (by decide)
     (by decide)⟩

/-- C4: with shuffle disabled, the call succeeds, leaves the caller's
list in its original order, and batch `i+1` (0-indexed position `i`) is
exactly the input slice from `i*batch_size` of length `batch_size`
(truncated at the end) — no reordering. -/
theorem spec_C4 {σ : Type} (rng : RNG σ) (g : σ) (paths : List String)
    (bs : Int) (seed : PyVal) (hbs : 0 < bs) :
    ∃ batches g2,
      split_filepaths_into_batches rng g paths (PyVal.int bs)
          (PyVal.bool false) seed
        = some (batches, paths, g2) ∧
      batches.length = (paths.length + bs.toNat - 1) / bs.toNat ∧
      ∀ i : Nat, i < batches.length →
        batches[i]?
          = some (i + 1, (paths.drop (i * bs.toNat)).take bs.toNat) := by
  have hB : 0 < bs.toNat := by omega
  have hps : postShuffle rng g paths (PyVal.bool false) seed
      = (paths, if seed = PyVal.pynone then g else rng.seedFn seed) := rfl
  have hsplit := split_eq_chunks rng g paths bs (PyVal.bool false) seed hbs
  rw [hps] at hsplit
  refine ⟨List.enumFrom 1 (chunks bs.toNat hB paths),
    if seed = PyVal.pynone then g else rng.seedFn seed, hsplit, ?_, ?_⟩
  · rw [List.enumFrom_length, chunks_length]
  · intro i hi
    rw [List.enumFrom_length] at hi
    rw [List.getElem?_enumFrom, chunks_getElem bs.toNat hB i paths hi]
    simp only [Option.map_some']
    rw [Nat.add_comm 1 i]

/-- Witness for C4 at a concrete input: seven paths, batch size 3
(the spec's §8 scenario). -/
theorem spec_C4_witness :
    (0 : Int) < 3 ∧
    ∃ batches g2,
      split_filepaths_into_batches idRNG ()
          ["a", "b", "c", "d", "e", "f", "g"] (PyVal.int 3)
          (PyVal.bool false) PyVal.pynone
        = some (batches, ["a", "b", "c", "d", "e", "f", "g"], g2) ∧
      batches.length
        = (["a", "b", "c", "d", "e", "f", "g"].length + (3 : Int).toNat - 1)
            / (3 : Int).toNat ∧
      ∀ i : Nat, i < batches.length →
        batches[i]?
          = some (i + 1,
              ((["a", "b", "c", "d", "e", "f", "g"].drop
                  (i * (3 : Int).toNat)).take (3 : Int).toNat)) :=
  ⟨by decide,
   spec_C4 idRNG () ["a", "b", "c", "d", "e", "f", "g"] 3 PyVal.pynone
     (by decide)⟩

/-- C9: any non-empty string supplied for the shuffle flag — including
"False", "false" or "0" — is truthy, so the call behaves exactly as
with shuffle enabled; the empty string is the only falsy string and
behaves exactly as with shuffle disabled. -/
theorem spec_C9 {σ : Type} (rng : RNG σ) (g : σ) (paths : List String)
    (bv seed : PyVal) (s : String) (hs : s ≠ "") :
    pyTruthy (PyVal.str s) = true ∧
    split_filepaths_into_batches rng g paths bv (PyVal.str s) seed
      = split_filepaths_into_batches rng g paths bv (PyVal.bool true) seed ∧
    split_filepaths_into_batches rng g paths bv (PyVal.str "") seed
      = split_filepaths_into_batches rng g paths bv (PyVal.bool false)
          seed := by
  have h1 : pyTruthy (PyVal.str s) = true := by
    simp [pyTruthy, hs]
  have h2 : pyTruthy (PyVal.str "") = false := by
    simp [pyTruthy]
  refine ⟨h1, ?_, ?_⟩
  · have hps : postShuffle rng g paths (PyVal.str s) seed
        = postShuffle rng g paths (PyVal.bool true) seed := by
      unfold postShuffle
      rw [h1]
      rfl
    rw [split_unfold rng g paths bv (PyVal.str s),
      split_unfold rng g paths bv (PyVal.bool true), hps]
  · have hps : postShuffle rng g paths (PyVal.str "") seed
        = postShuffle rng g paths (PyVal.bool false) seed := by
      unfold postShuffle
      rw [h2]
      rfl
    rw [split_unfold rng g paths bv (PyVal.str ""),
      split_unfold rng g paths bv (PyVal.bool false), hps]

/-- Witness for C9 at the concrete flag value "False". -/
theorem spec_C9_witness :
    "False" ≠ "" ∧
    (pyTruthy (PyVal.str "False") = true ∧
     split_filepaths_into_batches idRNG () ["a", "b"] (PyVal.int 100)
         (PyVal.str "False") PyVal.pynone
       = split_filepaths_into_batches idRNG () ["a", "b"] (PyVal.int 100)
           (PyVal.bool true) PyVal.pynone ∧
     split_filepaths_into_batches idRNG () ["a", "b"] (PyVal.int 100)
         (PyVal.str "") PyVal.pynone
       = split_filepaths_into_batches idRNG () ["a", "b"] (PyVal.int 100)
           (PyVal.bool false) PyVal.pynone) :=
  ⟨by decide,
   spec_C9 idRNG () ["a", "b"] (PyVal.int 100) PyVal.pynone "False"
     (by decide)⟩

/-- C10: `split_filepaths_into_batches` returns the caller's list as it
stands after the call (the embedding of the in-place `random.shuffle` of
line 67): with shuffle enabled it is the shuffled order produced by the
generator, with shuffle disabled it is the original list unchanged. -/
theorem spec_C10 {σ : Type} (rng : RNG σ) (g : σ) (paths : List String)
    (bs : Int) (seed : PyVal) (_hne : paths ≠ []) (hbs : 0 < bs) :
    (∃ batches,
      split_filepaths_into_batches rng g paths (PyVal.int bs)
          (PyVal.bool true) seed
        = some (batches,
            (rng.shuffleFn
              (if seed = PyVal.pynone then g else rng.seedFn seed) paths).1,
            (rng.shuffleFn
              (if seed = PyVal.pynone then g else rng.seedFn seed)
                paths).2)) ∧
    (∃ batches,
      split_filepaths_into_batches rng g paths (PyVal.int bs)
          (PyVal.bool false) seed
        = some (batches, paths,
            if seed = PyVal.pynone then g else rng.seedFn seed)) := by
  constructor
  · have hps : postShuffle rng g paths (PyVal.bool true) seed
        = rng.shuffleFn
            (if seed = PyVal.pynone then g else rng.seedFn seed) paths :=
      rfl
    have hsplit := split_eq_chunks rng g paths bs (PyVal.bool true) seed hbs
    rw [hps] at hsplit
    exact ⟨_, hsplit⟩
  · have hps : postShuffle rng g paths (PyVal.bool false) seed
        = (paths, if seed = PyVal.pynone then g else rng.seedFn seed) :=
      rfl
    have hsplit := split_eq_chunks rng g paths bs (PyVal.bool false) seed
      hbs
    rw [hps] at hsplit
    exact ⟨_, hsplit⟩

/-- Witness for C10 at a concrete input. -/
theorem spec_C10_witness :
    ["a", "b", "c"] ≠ ([] : List String) ∧ (0 : Int) < 2 ∧
    ((∃ batches,
      split_filepaths_into_batches idRNG () ["a", "b", "c"] (PyVal.int 2)
          (PyVal.bool true) PyVal.pynone
        = some (batches,
            (idRNG.shuffleFn
              (if PyVal.pynone = PyVal.pynone then ()
               else idRNG.seedFn PyVal.pynone) ["a", "b", "c"]).1,
            (idRNG.shuffleFn
              (if PyVal.pynone = PyVal.pynone then ()
               else idRNG.seedFn PyVal.pynone) ["a", "b", "c"]).2)) ∧
    (∃ batches,
      split_filepaths_into_batches idRNG () ["a", "b", "c"] (PyVal.int 2)
          (PyVal.bool false) PyVal.pynone
        = some (batches, ["a", "b", "c"],
            if PyVal.pynone = PyVal.pynone then ()
            else idRNG.seedFn PyVal.pynone))) :=
  ⟨by decide, by decide,
   spec_C10 idRNG () ["a", "b", "c"] 2 PyVal.pynone (by decide)
     (by decide)⟩

/-- C5 (code-bug evidence): non-positive batch sizes are not rejected
with a configuration error.  A negative batch size makes `range(0, N,
batch_size)` empty, so the call silently returns an empty batch
collection; a zero batch size raises an uncaught `ValueError` from
`range`, not a configuration error. -/
theorem spec_C5_behavior :
    split_filepaths_into_batches idRNG () ["a", "b", "c"]
        (PyVal.int (-1)) (PyVal.bool false) PyVal.pynone
      = some ([], ["a", "b", "c"], ()) ∧
    split_filepaths_into_batches idRNG () ["a", "b", "c"]
        (PyVal.int 0) (PyVal.bool false) PyVal.pynone
      = none := by
  constructor
  · have h1 : pyRange 0 (3 : Int) (-1) = some [] := by
      unfold pyRange
      rw [dif_neg (by omega : ¬ (0 : Int) < (-1 : Int))]
      rw [dif_pos (by omega : (-1 : Int) < 0)]
      rw [pyRangeDown_eq]
      rw [if_neg (by omega : ¬ (3 : Int) < 0)]
    rw [split_unfold]
    show (match pyRange 0 (3 : Int) (-1) with
          | some idxs =>
              some ((List.enumFrom 1 idxs).map
                  (fun p =>
                    (p.1, pySlice ["a", "b", "c"] p.2 (p.2 + (-1)))),
                (["a", "b", "c"] : List String), ())
          | none => none)
        = some ([], ["a", "b", "c"], ())
    rw [h1]
    rfl
  · have h0 : pyRange 0 (3 : Int) 0 = none := by
      unfold pyRange
      rw [dif_neg (by omega : ¬ (0 : Int) < (0 : Int))]
      rw [dif_neg (by omega : ¬ (0 : Int) < (0 : Int))]
    rw [split_unfold]
    show (match pyRange 0 (3 : Int) 0 with
          | some idxs =>
              some ((List.enumFrom 1 idxs).map
                  (fun p =>
                    (p.1, pySlice ["a", "b", "c"] p.2 (p.2 + 0))),
                (["a", "b", "c"] : List String), ())
          | none => none)
        = none
    rw [h0]

/-- C8: a batch-size flag supplied on the command line is parsed as a
string (no type coercion is configured), `main` passes it through, and
`range` with a string step raises `TypeError`, so the run fails for
every supplied value; only the absent flag — the `int` default `100` —
produces batches. -/
theorem spec_C8 {σ : Type} (rng : RNG σ) (g : σ) (args : Args)
    (paths : List String) (s : String) :
    parse_batch_size (Option.some s) = PyVal.str s ∧
    main_split rng g { args with batch_size := Option.some s } paths
      = none ∧
    ∃ r, main_split rng g { args with batch_size := Option.none } paths
      = some r := by
  refine ⟨rfl, rfl, ?_⟩
  exact ⟨_, split_eq_chunks rng g paths 100 (parse_shuffle args.shuffle)
    PyVal.pynone (by omega)⟩

/-- A generator whose permutation depends on the ambient state: state
`true` reverses the list, state `false` leaves it unchanged; seeding
sets the state to `true`.  Used to exhibit state-dependence of
unseeded runs. -/
def toggleRNG : RNG Bool where
  seedFn := fun _ => true
  shuffleFn := fun g l => (if g then l.reverse else l, g)
  shuffle_perm := fun g l => by
    cases g
    · exact List.Perm.refl l
    · exact List.reverse_perm l

/-- C2 (code-bug evidence): `main` never passes `args.seed` to
`split_filepaths_into_batches` — the result is the same for any two
values of the seed flag — and because of that, two runs of `main` with
the same seed flag, the same listed files and a state-dependent
generator produce different batch collections: the seed does not
determine the permutation. -/
theorem spec_C2_behavior :
    (∀ s1 s2 : Option String,
      main_split toggleRNG true
          { directory := "d", batch_size := Option.none,
            shuffle := Option.none, output_directory := Option.none,
            seed := s1 } ["a", "b"]
        = main_split toggleRNG true
            { directory := "d", batch_size := Option.none,
              shuffle := Option.none, output_directory := Option.none,
              seed := s2 } ["a", "b"]) ∧
    main_split toggleRNG true
        { directory := "d", batch_size := Option.none,
          shuffle := Option.none, output_directory := Option.none,
          seed := Option.some "42" } ["a", "b"]
      ≠ main_split toggleRNG false
          { directory := "d", batch_size := Option.none,
            shuffle := Option.none, output_directory := Option.none,
            seed := Option.some "42" } ["a", "b"] := by
  constructor
  · intro s1 s2
    rfl
  · intro hEq
    have hEq' : split_filepaths_into_batches toggleRNG true ["a", "b"]
        (PyVal.int 100) (PyVal.bool true) PyVal.pynone
      = split_filepaths_into_batches toggleRNG false ["a", "b"]
        (PyVal.int 100) (PyVal.bool true) PyVal.pynone := hEq
    have hps1 : postShuffle toggleRNG true ["a", "b"] (PyVal.bool true)
        PyVal.pynone = (["b", "a"], true) := rfl
    have hps2 : postShuffle toggleRNG false ["a", "b"] (PyVal.bool true)
        PyVal.pynone = (["a", "b"], false) := rfl
    have hA := split_eq_chunks toggleRNG true ["a", "b"] 100
      (PyVal.bool true) PyVal.pynone (by omega)
    have hB := split_eq_chunks toggleRNG false ["a", "b"] 100
      (PyVal.bool true) PyVal.pynone (by omega)
    rw [hps1] at hA
    rw [hps2] at hB
    rw [hA, hB] at hEq'
    simp at hEq'

/-- Modelled from the Python standard library contract of
`os.path.join` for the shapes used here (a directory joined with a
relative entry name): parent, separator, name. -/
def pathJoin (directory name : String) : String := directory ++ "/" ++ name

/-- Modelled from `os.path.basename`: the part of the path after the
last separator. -/
def basename (p : String) : String :=
  String.mk ((p.data.reverse.takeWhile (fun c => c != '/')).reverse)

/-- Boolean list-prefix test (used for the "entry strictly below a
directory" check of the filesystem model). -/
def listPre : List Char → List Char → Bool
  | [], _ => true
  | _ :: _, [] => false
  | a :: as, b :: bs => a == b && listPre as bs

/-- `strHasPre pre s`: `s` starts with `pre`. -/
def strHasPre (pre s : String) : Bool := listPre pre.data s.data

theorem listPre_append : ∀ (l r : List Char), listPre l (l ++ r) = true := by
  intro l
  induction l with
  | nil => intro r; rfl
  | cons a as ih =>
      intro r
      show (a == a && listPre as (as ++ r)) = true
      rw [ih r, beq_self_eq_true]
      rfl

theorem strHasPre_append (pre rest : String) :
    strHasPre pre (pre ++ rest) = true := by
  unfold strHasPre
  rw [String.data_append]
  exact listPre_append pre.data rest.data

/-- An abstract snapshot of the filesystem regions the materializer
touches: the existing directories, and the existing regular files with
their contents. -/
structure FS where
  dirs : List String
  files : List (String × String)

/-- Association-list lookup of a file's content by path. -/
def lookupFile : List (String × String) → String → Option String
  | [], _ => Option.none
  | f :: fsx, p => if f.1 = p then Option.some f.2 else lookupFile fsx p

/-- Modelled from `os.path.exists`: a directory or file exists at `p`. -/
def FS.existsPath (fs : FS) (p : String) : Bool :=
  fs.dirs.contains p || (lookupFile fs.files p).isSome

/-- Whether the directory `p` has any entry strictly below it. -/
def FS.hasEntryUnder (fs : FS) (p : String) : Bool :=
  fs.dirs.any (fun d => strHasPre (p ++ "/") d) ||
  fs.files.any (fun f => strHasPre (p ++ "/") f.1)

/-- Modelled from `os.rmdir`: non-recursive removal — succeeds only on
an existing directory with no entries below it, otherwise raises. -/
def FS.rmdir (fs : FS) (p : String) : Option FS :=
  if fs.dirs.contains p && !fs.hasEntryUnder p then
    Option.some { fs with dirs := fs.dirs.erase p }
  else Option.none

/-- Modelled from `os.makedirs` (no `exist_ok`): fails if the path
already exists, otherwise records the new directory.  (The creation of
missing intermediate directories is not modelled; `batch.py` only ever
creates one level below the output root.) -/
def FS.makedirs (fs : FS) (p : String) : Option FS :=
  if fs.existsPath p then Option.none
  else Option.some { fs with dirs := p :: fs.dirs }

/-- Modelled from `shutil.copy` with a directory destination: reads the
source file and writes its content to `dstDir/basename(src)`,
overwriting any file already at that destination; raises if the source
file does not exist. -/
def FS.copy (fs : FS) (src dstDir : String) : Option FS :=
  match lookupFile fs.files src with
  | Option.some content =>
      let dst := pathJoin dstDir (basename src)
      Option.some { fs with
        files := (dst, content) :: fs.files.filter (fun f => f.1 != dst) }
  | Option.none => Option.none

/-- The copy loop of `create_batch_folder` (batch.py lines 95-96). -/
def copyFiles : FS → List String → String → Option FS
  | fs, [], _ => Option.some fs
  | fs, p :: rest, dstDir =>
      match fs.copy p dstDir with
      | Option.some fs1 => copyFiles fs1 rest dstDir
      | Option.none => Option.none

/-- Embedding of `create_batch_folder` (batch.py lines 75-96): join the
folder path, remove a pre-existing entry with `os.rmdir`, recreate the
folder, copy every member file into it. -/
def create_batch_folder (fs : FS) (list_of_filepaths : List String)
    (folder_name directory : String) : Option FS :=
  let folder_path := pathJoin directory folder_name
  match (if fs.existsPath folder_path then fs.rmdir folder_path
         else Option.some fs) with
  | Option.none => Option.none
  | Option.some fs1 =>
      match fs1.makedirs folder_path with
      | Option.none => Option.none
      | Option.some fs2 => copyFiles fs2 list_of_filepaths folder_path

/-- Modelled from Python `str` on a non-negative `int`: its decimal
digit string. -/
def pyStrNat (n : Nat) : String :=
  if n = 0 then "0"
  else String.mk (((Nat.digits 10 n).map Nat.digitChar).reverse)

/-- Embedding of `create_all_batches` (batch.py lines 99-113): iterate
the batch dictionary in insertion order, naming each folder
`"Batch " + str(batch_no)`. -/
def create_all_batches (fs : FS) (batches_dict : List (Nat × List String))
    (directory : String) : Option FS :=
  match batches_dict with
  | [] => Option.some fs
  | (batch_no, files) :: rest =>
      match create_batch_folder fs files ("Batch " ++ pyStrNat batch_no)
          directory with
      | Option.some fs1 => create_all_batches fs1 rest directory
      | Option.none => Option.none

/-- Decimal decoding of a digit character. -/
def charToDigit (c : Char) : Nat := c.toNat - 48

theorem charToDigit_digitChar (d : Nat) (hd : d < 10) :
    charToDigit (Nat.digitChar d) = d := by
  interval_cases d <;> rfl

theorem map_charToDigit_digitChar :
    ∀ (l : List Nat), (∀ d ∈ l, d < 10) →
      l.map (fun d => charToDigit (Nat.digitChar d)) = l := by
  intro l
  induction l with
  | nil => intro _; rfl
  | cons x xs ih =>
      intro h
      simp only [List.map_cons]
      rw [charToDigit_digitChar x (h x (by simp)),
        ih (fun d hd => h d (by simp [hd]))]

/-- Decimal decoding of a digit string (a left inverse of `pyStrNat`). -/
def decodeStr (s : String) : Nat :=
  Nat.ofDigits 10 ((s.data.map charToDigit).reverse)

theorem decodeStr_pyStrNat (n : Nat) : decodeStr (pyStrNat n) = n := by
  unfold pyStrNat decodeStr
  by_cases hn : n = 0
  · subst hn
    rfl
  · rw [if_neg hn]
    show Nat.ofDigits 10
        (((((Nat.digits 10 n).map Nat.digitChar).reverse).map
            charToDigit).reverse) = n
    rw [List.map_reverse, List.reverse_reverse, List.map_map]
    have hall : ∀ d ∈ Nat.digits 10 n, d < 10 := fun d hd =>
      Nat.digits_lt_base (by omega) hd
    rw [show (charToDigit ∘ Nat.digitChar)
        = (fun d => charToDigit (Nat.digitChar d)) from rfl]
    rw [map_charToDigit_digitChar (Nat.digits 10 n) hall,
      Nat.ofDigits_digits]

theorem pyStrNat_injective : Function.Injective pyStrNat :=
  Function.LeftInverse.injective decodeStr_pyStrNat

theorem lookupFile_cons (f : String × String) (L : List (String × String))
    (q : String) :
    lookupFile (f :: L) q
      = if f.1 = q then Option.some f.2 else lookupFile L q := rfl

theorem lookupFile_filter_ne (q d : String) (hqd : q ≠ d) :
    ∀ L : List (String × String),
      lookupFile (L.filter (fun f => f.1 != d)) q = lookupFile L q := by
  intro L
  induction L with
  | nil => rfl
  | cons f L ih =>
      by_cases hfd : f.1 = d
      · rw [List.filter_cons_of_neg (by simp [hfd])]
        rw [ih]
        have hfq : ¬ f.1 = q := by
          rw [hfd]
          exact fun h => hqd h.symm
        rw [lookupFile_cons, if_neg hfq]
      · rw [List.filter_cons_of_pos (by simp [hfd])]
        rw [lookupFile_cons, lookupFile_cons]
        by_cases hfq : f.1 = q
        · rw [if_pos hfq, if_pos hfq]
        · rw [if_neg hfq, if_neg hfq]
          exact ih

/-- The filesystem after one `shutil.copy` of content `content` to
destination path `dst` (abbreviation used in proofs about `FS.copy`). -/
def copyResult (fs : FS) (dst content : String) : FS :=
  { fs with files := (dst, content) :: fs.files.filter (fun f => f.1 != dst) }

theorem lookupFile_copyResult (fs : FS) (dst content q : String) :
    lookupFile (copyResult fs dst content).files q
      = if dst = q then Option.some content
        else lookupFile (fs.files.filter (fun f => f.1 != dst)) q := rfl

/-- The copy loop succeeds when every source exists and no source lies
inside the destination folder; it only touches paths inside the
destination folder, and afterwards every member's copy exists there. -/
theorem copyFiles_ok (dstDir : String) :
    ∀ (files : List String) (fs : FS),
      (∀ f ∈ files, (lookupFile fs.files f).isSome = true ∧
          strHasPre (dstDir ++ "/") f = false) →
      ∃ fs', copyFiles fs files dstDir = Option.some fs' ∧
        fs'.dirs = fs.dirs ∧
        (∀ q, (lookupFile fs.files q).isSome = true →
            (lookupFile fs'.files q).isSome = true) ∧
        (∀ q, strHasPre (dstDir ++ "/") q = false →
            lookupFile fs'.files q = lookupFile fs.files q) ∧
        (∀ f ∈ files,
          (lookupFile fs'.files (pathJoin dstDir (basename f))).isSome
            = true) := by
  intro files
  induction files with
  | nil =>
      intro fs _
      exact ⟨fs, rfl, rfl, fun _ h => h, fun _ _ => rfl,
        fun f hf => absurd hf (List.not_mem_nil f)⟩
  | cons p rest ih =>
      intro fs hsrc
      obtain ⟨hp, hpre⟩ := hsrc p (List.mem_cons_self p rest)
      obtain ⟨content, hc⟩ := Option.isSome_iff_exists.mp hp
      have hdstpre : strHasPre (dstDir ++ "/")
          (pathJoin dstDir (basename p)) = true := by
        unfold pathJoin
        exact strHasPre_append (dstDir ++ "/") (basename p)
      have hcopy : fs.copy p dstDir
          = Option.some
              (copyResult fs (pathJoin dstDir (basename p)) content) := by
        unfold FS.copy
        rw [hc]
        rfl
      have hrest : ∀ f ∈ rest,
          (lookupFile
              (copyResult fs (pathJoin dstDir (basename p)) content).files
              f).isSome = true ∧
          strHasPre (dstDir ++ "/") f = false := by
        intro f hf
        obtain ⟨hf1, hf2⟩ := hsrc f (List.mem_cons_of_mem p hf)
        refine ⟨?_, hf2⟩
        have hne : pathJoin dstDir (basename p) ≠ f := by
          intro he
          rw [he] at hdstpre
          rw [hdstpre] at hf2
          exact Bool.noConfusion hf2
        rw [lookupFile_copyResult, if_neg hne,
          lookupFile_filter_ne f (pathJoin dstDir (basename p))
            (fun h => hne h.symm) fs.files]
        exact hf1
      obtain ⟨fs', h1, h2, h3, h4, h5⟩ := ih _ hrest
      refine ⟨fs', ?_, h2, ?_, ?_, ?_⟩
      · show (match fs.copy p dstDir with
              | Option.some fs1 => copyFiles fs1 rest dstDir
              | Option.none => Option.none) = Option.some fs'
        rw [hcopy]
        exact h1
      · intro q hq
        apply h3
        by_cases hqd : pathJoin dstDir (basename p) = q
        · rw [lookupFile_copyResult, if_pos hqd]
          rfl
        · rw [lookupFile_copyResult, if_neg hqd,
            lookupFile_filter_ne q (pathJoin dstDir (basename p))
              (fun h => hqd h.symm) fs.files]
          exact hq
      · intro q hq
        have hqd : ¬ pathJoin dstDir (basename p) = q := by
          intro he
          rw [← he] at hq
          rw [hdstpre] at hq
          exact Bool.noConfusion hq
        rw [h4 q hq, lookupFile_copyResult, if_neg hqd,
          lookupFile_filter_ne q (pathJoin dstDir (basename p))
            (fun h => hqd h.symm) fs.files]
      · intro f hf
        rcases List.mem_cons.mp hf with hfp | hfr
        · subst hfp
          apply h3
          rw [lookupFile_copyResult, if_pos rfl]
          rfl
        · exact h5 f hfr

theorem create_batch_folder_unfold (fs : FS) (files : List String)
    (folder_name directory : String) :
    create_batch_folder fs files folder_name directory
      = match (if fs.existsPath (pathJoin directory folder_name) = true
               then fs.rmdir (pathJoin directory folder_name)
               else Option.some fs) with
        | Option.none => Option.none
        | Option.some fs1 =>
            match fs1.makedirs (pathJoin directory folder_name) with
            | Option.none => Option.none
            | Option.some fs2 =>
                copyFiles fs2 files (pathJoin directory folder_name) :=
  rfl

theorem string_append_inj_right (a x y : String) (h : a ++ x = a ++ y) :
    x = y := by
  have hd := congrArg String.data h
  simp only [String.data_append] at hd
  exact String.ext (List.append_cancel_left hd)

theorem pathJoin_inj_right (d x y : String)
    (h : pathJoin d x = pathJoin d y) : x = y := by
  have hd := congrArg String.data h
  unfold pathJoin at hd
  simp only [String.data_append, List.append_assoc] at hd
  exact String.ext (List.append_cancel_left (List.append_cancel_left hd))

/-- C6: destination folders are named `"Batch " + str(batch_no)` — a
deterministic function of the batch number, injective both as a name
and as a full destination path, hence unique per batch; a pre-existing
directory with entries below it makes the non-recursive removal fail
(the call errors out); a pre-existing empty directory is removed before
the folder is recreated and populated with copies of the member files;
a fresh destination path is simply created and populated. -/
theorem spec_C6 (fs : FS) (files : List String)
    (folder_name directory : String) :
    Function.Injective (fun n : Nat => "Batch " ++ pyStrNat n) ∧
    (∀ d : String, Function.Injective
      (fun n : Nat => pathJoin d ("Batch " ++ pyStrNat n))) ∧
    (fs.existsPath (pathJoin directory folder_name) = true →
     fs.hasEntryUnder (pathJoin directory folder_name) = true →
     create_batch_folder fs files folder_name directory = Option.none) ∧
    (fs.dirs.contains (pathJoin directory folder_name) = true →
     fs.hasEntryUnder (pathJoin directory folder_name) = false →
     (fs.dirs.erase (pathJoin directory folder_name)).contains
        (pathJoin directory folder_name) = false →
     lookupFile fs.files (pathJoin directory folder_name) = Option.none →
     (∀ f ∈ files, (lookupFile fs.files f).isSome = true ∧
        strHasPre (pathJoin directory folder_name ++ "/") f = false) →
     ∃ fs', create_batch_folder fs files folder_name directory
          = Option.some fs' ∧
       fs'.dirs = pathJoin directory folder_name
          :: fs.dirs.erase (pathJoin directory folder_name) ∧
       ∀ f ∈ files, (lookupFile fs'.files
          (pathJoin (pathJoin directory folder_name)
            (basename f))).isSome = true) ∧
    (fs.existsPath (pathJoin directory folder_name) = false →
     (∀ f ∈ files, (lookupFile fs.files f).isSome = true ∧
        strHasPre (pathJoin directory folder_name ++ "/") f = false) →
     ∃ fs', create_batch_folder fs files folder_name directory
          = Option.some fs' ∧
       fs'.dirs = pathJoin directory folder_name :: fs.dirs ∧
       ∀ f ∈ files, (lookupFile fs'.files
          (pathJoin (pathJoin directory folder_name)
            (basename f))).isSome = true) := by
  refine ⟨?_, ?_, ?_, ?_, ?_⟩
  · intro m n h
    exact pyStrNat_injective (string_append_inj_right "Batch " _ _ h)
  · intro d m n h
    exact pyStrNat_injective (string_append_inj_right "Batch " _ _
      (pathJoin_inj_right d _ _ h))
  · intro hex hentry
    have hrm0 : fs.rmdir (pathJoin directory folder_name)
        = Option.none := by
      unfold FS.rmdir
      rw [hentry]
      simp
    rw [create_batch_folder_unfold, if_pos hex, hrm0]
  · intro hcont hentry herase hnofile hsrc
    have hex : fs.existsPath (pathJoin directory folder_name) = true := by
      unfold FS.existsPath
      rw [hcont]
      rfl
    have hrm : fs.rmdir (pathJoin directory folder_name)
        = Option.some
            { fs with dirs :=
                fs.dirs.erase (pathJoin directory folder_name) } := by
      unfold FS.rmdir
      rw [hcont, hentry]
      rfl
    have hmk : FS.makedirs
        { fs with dirs := fs.dirs.erase (pathJoin directory folder_name) }
        (pathJoin directory folder_name)
        = Option.some
            { dirs := pathJoin directory folder_name
                :: fs.dirs.erase (pathJoin directory folder_name),
              files := fs.files } := by
      unfold FS.makedirs FS.existsPath
      show (if ((fs.dirs.erase (pathJoin directory folder_name)).contains
            (pathJoin directory folder_name)
          || (lookupFile fs.files (pathJoin directory folder_name)).isSome)
            = true
          then Option.none else _) = _
      rw [herase, hnofile]
      rfl
    have hcreate : create_batch_folder fs files folder_name directory
        = copyFiles
            { dirs := pathJoin directory folder_name
                :: fs.dirs.erase (pathJoin directory folder_name),
              files := fs.files }
            files (pathJoin directory folder_name) := by
      rw [create_batch_folder_unfold, if_pos hex, hrm]
      show (match FS.makedirs
              { fs with dirs :=
                  fs.dirs.erase (pathJoin directory folder_name) }
              (pathJoin directory folder_name) with
            | Option.none => Option.none
            | Option.some fs2 =>
                copyFiles fs2 files (pathJoin directory folder_name))
          = _
      rw [hmk]
    obtain ⟨fs', h1, h2, h3, h4, h5⟩ :=
      copyFiles_ok (pathJoin directory folder_name) files
        { dirs := pathJoin directory folder_name
            :: fs.dirs.erase (pathJoin directory folder_name),
          files := fs.files }
        hsrc
    refine ⟨fs', ?_, ?_, h5⟩
    · rw [hcreate]
      exact h1
    · rw [h2]
  · intro hex hsrc
    have hmk0 : FS.makedirs fs (pathJoin directory folder_name)
        = Option.some
            { dirs := pathJoin directory folder_name :: fs.dirs,
              files := fs.files } := by
      unfold FS.makedirs
      rw [hex]
      rfl
    have hcreate : create_batch_folder fs files folder_name directory
        = copyFiles
            { dirs := pathJoin directory folder_name :: fs.dirs,
              files := fs.files }
            files (pathJoin directory folder_name) := by
      rw [create_batch_folder_unfold,
        if_neg (by rw [hex]; exact Bool.false_ne_true)]
      show (match FS.makedirs fs (pathJoin directory folder_name) with
            | Option.none => Option.none
            | Option.some fs2 =>
                copyFiles fs2 files (pathJoin directory folder_name))
          = _
      rw [hmk0]
    obtain ⟨fs', h1, h2, h3, h4, h5⟩ :=
      copyFiles_ok (pathJoin directory folder_name) files
        { dirs := pathJoin directory folder_name :: fs.dirs,
          files := fs.files }
        hsrc
    refine ⟨fs', ?_, ?_, h5⟩
    · rw [hcreate]
      exact h1
    · rw [h2]

/-- Witness for C6: a destination folder that exists and is non-empty
makes the call fail; one that exists and is empty is replaced and
populated. -/
theorem spec_C6_witness :
    Function.Injective (fun n : Nat => "Batch " ++ pyStrNat n) ∧
    create_batch_folder ⟨["/out/Batch 1", "/out/Batch 1/sub"], []⟩ []
        "Batch 1" "/out" = Option.none ∧
    (∃ fs', create_batch_folder ⟨["/out/Batch 1"], [("/src/a.png", "A")]⟩
          ["/src/a.png"] "Batch 1" "/out" = Option.some fs' ∧
      fs'.dirs = pathJoin "/out" "Batch 1"
          :: (["/out/Batch 1"].erase (pathJoin "/out" "Batch 1")) ∧
      ∀ f ∈ ["/src/a.png"],
        (lookupFile fs'.files
          (pathJoin (pathJoin "/out" "Batch 1") (basename f))).isSome
          = true) :=
  ⟨(spec_C6 ⟨[], []⟩ [] "x" "y").1,
   (spec_C6 ⟨["/out/Batch 1", "/out/Batch 1/sub"], []⟩ [] "Batch 1"
       "/out").2.2.1 (by decide) (by decide),
   (spec_C6 ⟨["/out/Batch 1"], [("/src/a.png", "A")]⟩ ["/src/a.png"]
       "Batch 1" "/out").2.2.2.1 (by decide) (by decide) (by decide)
     (by decide) (by decide)⟩

/-- C7: empty input — the partitioner returns an empty batch collection
and the materializer applied to an empty collection creates no folders
and performs no filesystem mutation. -/
theorem spec_C7 {σ : Type} (rng : RNG σ) (g : σ) (bs : Int)
    (shuffle seed : PyVal) (fs : FS) (directory : String)
    (hbs : 0 < bs) :
    (∃ g2, split_filepaths_into_batches rng g [] (PyVal.int bs) shuffle
        seed = some ([], [], g2)) ∧
    create_all_batches fs [] directory = Option.some fs := by
  constructor
  · have hperm := postShuffle_perm rng g [] shuffle seed
    have hnil : (postShuffle rng g [] shuffle seed).1 = [] :=
      hperm.eq_nil
    have hsplit := split_eq_chunks rng g [] bs shuffle seed hbs
    rw [hnil, chunks_nil, List.enumFrom_nil] at hsplit
    exact ⟨_, hsplit⟩
  · rfl

/-- Witness for C7 at a concrete input. -/
theorem spec_C7_witness :
    (0 : Int) < 5 ∧
    ((∃ g2, split_filepaths_into_batches idRNG () [] (PyVal.int 5)
        (PyVal.bool true) PyVal.pynone = some ([], [], g2)) ∧
     create_all_batches ⟨[], []⟩ [] "out" = Option.some ⟨[], []⟩) :=
  ⟨by decide,
   spec_C7 idRNG () 5 (PyVal.bool true) PyVal.pynone ⟨[], []⟩ "out"
     (by decide)⟩

end BatchTool
